import Mathlib

/-!
Verification of the `abstract-path-js` core (`src/path.ts`, `src/constants.ts`)
against its natural-language specification.

Strings are embedded as `List Char` (`Str`).  The external tokenizer
(`@softwareplumber/abstract-tokenizer`, an out-of-scope collaborator) is
modelled from the spec's interface description (spec sections 2, 4.1, 6):
it splits a character stream into literal runs (escapes resolved) and
single-operator tokens; empty literal runs are not emitted (witnessed by the
repository's own test `parses the empty string as an empty path`).
-/

abbrev Str := List Char

/-- Modelled from the spec: a token of the external tokenizer adapter is
either a literal character run with escapes already resolved
(`TokenType.CHAR_SEQUENCE`) or a single reserved operator character
(`TokenType.OPERATOR`). -/
inductive Tok where
  | lit (data : Str)
  | op (data : Char)
deriving DecidableEq, Repr

/-- Modelled from the spec: the external tokenizer (`Tokens.fromString`).
`esc = none` models the empty escape symbol `''`.  A character following the
escape symbol is taken verbatim into the current literal run; an operator
character flushes the (nonempty) pending literal run and is emitted as an
operator token; a dangling escape at end of input escapes nothing. -/
def tokenizeAux (esc : Option Char) (ops : List Char) : Str → Str → List Tok
  | [], buf => if buf = [] then [] else [.lit buf]
  | c :: rest, buf =>
    if esc = some c then
      match rest with
      | [] => if buf = [] then [] else [.lit buf]
      | d :: rest2 => tokenizeAux esc ops rest2 (buf ++ [d])
    else if c ∈ ops then
      (if buf = [] then [] else [.lit buf]) ++ .op c :: tokenizeAux esc ops rest []
    else tokenizeAux esc ops rest (buf ++ [c])

/-- Embedding of `Tokens.fromString(path, escape, operators)`. -/
def tokensFromString (s : Str) (esc : Option Char) (ops : List Char) : List Tok :=
  tokenizeAux esc ops s []

/-- Embedding of `escapeToken` inside `escapeString` (path.ts line 136):
an operator token is re-emitted prefixed with the escape symbol, a literal
token is re-emitted unchanged. -/
def escTok (esc : Char) : Tok → Str
  | .lit s => s
  | .op c => [esc, c]

/-- Embedding of `escapeString(value, escape, operators)` (path.ts lines
135-138): re-tokenize `value` with an empty escape symbol and the operator
set enlarged by the escape character, then re-emit every token, prefixing
operator-classified tokens with the escape character. -/
def escapeStr (esc : Char) (ops : List Char) (v : Str) : Str :=
  ((tokensFromString v none (ops ++ [esc])).map (escTok esc)).flatten

/-- Embedding of `DEFAULT_PATH_OPERATORS` (constants.ts line 7). -/
def defaultPathOps : List Char := ['/']

/-- Embedding of `MATRIX_PATH_OPERATORS` (constants.ts line 4). -/
def mpOps : List Char := ['/', ';', '=']

/-- Embedding of `Array.prototype.join(sep)` for a single-character
separator, used by both `toString` implementations. -/
def joinChar (c : Char) : List Str → Str
  | [] => []
  | [s] => s
  | s :: s2 :: ss => s ++ c :: joinChar c (s2 :: ss)

/-- Embedding of `Path.parse` (path.ts lines 162-168): tokenize with escape
`\` and operator set `{'/'}`, keep the literal (`CHAR_SEQUENCE`) tokens. -/
def pathParse (s : Str) : List Str :=
  (tokensFromString s (some '\\') defaultPathOps).filterMap fun
    | .lit v => some v
    | .op _ => none

/-- Embedding of `Path<string>.toString` (path.ts lines 280-282): each
element is escaped with `escapeString` and the results are joined with
`/`. -/
def pathToString (p : List Str) : Str :=
  joinChar '/' (p.map (escapeStr '\\' defaultPathOps))

example : pathParse ('a' :: '/' :: 'b' :: '/' :: 'c' :: []) = [['a'], ['b'], ['c']] := by decide

example : pathParse ['a', '\\', '/', 'b', '/', 'c'] = [['a', '/', 'b'], ['c']] := by decide

example : pathParse ['a', '\\', '\\', '/', 'b', '/', 'c'] = [['a', '\\'], ['b'], ['c']] := by
  decide

example : pathParse [] = [] := by decide

example : pathToString [['a', '/', 'b'], ['c']] = ['a', '\\', '/', 'b', '/', 'c'] := by decide

example : pathToString [[]] = [] := by decide

/-- Unfolding lemma: tokenizing the empty input flushes the pending literal
buffer. -/
theorem tok_nil (esc : Option Char) (ops : List Char) (buf : Str) :
    tokenizeAux esc ops [] buf = if buf = [] then [] else [.lit buf] := by
  rw [tokenizeAux.eq_def]

/-- Unfolding lemma: the escape symbol takes the following character into the
buffer verbatim. -/
theorem tok_esc (esc : Option Char) (ops : List Char) (c d : Char) (rest buf : Str)
    (h : esc = some c) :
    tokenizeAux esc ops (c :: d :: rest) buf = tokenizeAux esc ops rest (buf ++ [d]) := by
  rw [tokenizeAux.eq_def]
  simp [h]

/-- Unfolding lemma: an unescaped operator flushes the buffer and is emitted
as an operator token. -/
theorem tok_op (esc : Option Char) (ops : List Char) (c : Char) (rest buf : Str)
    (h1 : ¬ esc = some c) (h2 : c ∈ ops) :
    tokenizeAux esc ops (c :: rest) buf
      = (if buf = [] then [] else [.lit buf]) ++ .op c :: tokenizeAux esc ops rest [] := by
  rw [tokenizeAux.eq_def]
  simp [h1, h2]

/-- Unfolding lemma: an ordinary character is appended to the buffer. -/
theorem tok_other (esc : Option Char) (ops : List Char) (c : Char) (rest buf : Str)
    (h1 : ¬ esc = some c) (h2 : c ∉ ops) :
    tokenizeAux esc ops (c :: rest) buf = tokenizeAux esc ops rest (buf ++ [c]) := by
  rw [tokenizeAux.eq_def]
  simp [h1, h2]

/-- Rendering the output of an escape-free tokenization re-emits the buffer
followed by the input with every operator character escape-prefixed. -/
theorem tokenizeAux_none_render (esc : Char) (ops' : List Char) :
    ∀ (cs buf : Str),
      ((tokenizeAux none ops' cs buf).map (escTok esc)).flatten
        = buf ++ cs.flatMap (fun c => if c ∈ ops' then [esc, c] else [c])
  | [], buf => by
    by_cases h : buf = [] <;> simp [tok_nil, h, escTok]
  | c :: cs, buf => by
    by_cases hop : c ∈ ops'
    · rw [tok_op none ops' c cs buf (by simp) hop]
      by_cases h : buf = [] <;>
        simp [h, hop, escTok, tokenizeAux_none_render esc ops' cs []]
    · rw [tok_other none ops' c cs buf (by simp) hop]
      simp [hop, tokenizeAux_none_render esc ops' cs (buf ++ [c])]

/-- The codec `escapeStr` maps each character to itself, escape-prefixed when it is an
operator or the escape character. -/
theorem escapeStr_eq (esc : Char) (ops : List Char) (v : Str) :
    escapeStr esc ops v
      = v.flatMap (fun c => if c ∈ ops ++ [esc] then [esc, c] else [c]) := by
  simpa [escapeStr, tokensFromString] using tokenizeAux_none_render esc (ops ++ [esc]) v []

/-- Consuming an escaped chunk appends the unescaped characters to the
pending literal buffer, whatever follows. -/
theorem tokenizeAux_escaped (e : Char) (ops : List Char) :
    ∀ (v rest buf : Str),
      tokenizeAux (some e) ops (escapeStr e ops v ++ rest) buf
        = tokenizeAux (some e) ops rest (buf ++ v)
  | [], rest, buf => by simp [escapeStr_eq]
  | c :: v, rest, buf => by
    have ih := tokenizeAux_escaped e ops v rest (buf ++ [c])
    rw [escapeStr_eq] at ih ⊢
    by_cases h : c ∈ ops ++ [e]
    · simp only [List.flatMap_cons, if_pos h, List.cons_append, List.append_assoc]
      rw [tok_esc (some e) ops e c _ buf rfl]
      simpa using ih
    · have hne : ¬ (some e : Option Char) = some c := by
        simp only [List.mem_append, List.mem_singleton, not_or] at h
        simp [Ne.symm h.2]
      have hnop : c ∉ ops := by
        simp only [List.mem_append, List.mem_singleton, not_or] at h
        exact h.1
      simp only [List.flatMap_cons, if_neg h, List.cons_append, List.singleton_append]
      rw [tok_other (some e) ops c _ buf hne hnop]
      simpa using ih

/-- Rewriting `join(sep)` in flat form: leading element followed by separator-prefixed
rest. -/
theorem joinChar_cons (c : Char) (s : Str) (ss : List Str) :
    joinChar c (s :: ss) = s ++ ss.flatMap (fun t => c :: t) := by
  induction ss generalizing s with
  | nil => simp [joinChar]
  | cons t ts ih =>
    show s ++ c :: joinChar c (t :: ts) = _
    rw [ih t]
    simp

/-- Tokenizing the `/`-prefixed remainder of a serialized path flushes the
pending literal and yields alternating operator and literal tokens. -/
theorem tokenize_path_rest :
    ∀ (ss : List Str), (∀ s ∈ ss, s ≠ []) → ∀ (buf : Str), buf ≠ [] →
      tokenizeAux (some '\\') defaultPathOps
          (ss.flatMap (fun t => '/' :: escapeStr '\\' defaultPathOps t)) buf
        = .lit buf :: ss.flatMap (fun t => [.op '/', .lit t])
  | [], _, buf, hb => by simp [tok_nil, hb]
  | t :: ts, h, buf, hb => by
    have hslash : ¬ (some '\\' : Option Char) = some '/' := by decide
    have hmem : '/' ∈ defaultPathOps := by decide
    simp only [List.flatMap_cons, List.cons_append, List.append_assoc]
    rw [tok_op (some '\\') defaultPathOps '/' _ buf hslash hmem, if_neg hb]
    rw [tokenizeAux_escaped '\\' defaultPathOps t _ []]
    simp only [List.nil_append]
    rw [tokenize_path_rest ts (fun s hs => h s (List.mem_cons_of_mem _ hs)) t
      (h t (List.mem_cons_self _ _))]
    simp

/-- Tokenizing a serialized path with all segments nonempty yields the
segments as literal tokens separated by `/` operator tokens. -/
theorem tokenize_pathToString (p : List Str) (h : ∀ s ∈ p, s ≠ []) :
    tokensFromString (pathToString p) (some '\\') defaultPathOps
      = match p with
        | [] => []
        | s :: ss => .lit s :: ss.flatMap (fun t => [.op '/', .lit t]) := by
  cases p with
  | nil => simp [pathToString, joinChar, tokensFromString, tok_nil]
  | cons s ss =>
    show tokenizeAux _ _ _ [] = _
    rw [pathToString, List.map_cons, joinChar_cons]
    rw [show (List.map (escapeStr '\\' defaultPathOps) ss).flatMap (fun t => '/' :: t)
          = ss.flatMap (fun t => '/' :: escapeStr '\\' defaultPathOps t) by
        simp [List.flatMap_map]]
    rw [tokenizeAux_escaped '\\' defaultPathOps s _ []]
    exact tokenize_path_rest ss (fun u hu => h u (List.mem_cons_of_mem _ hu)) s
      (h s (List.mem_cons_self _ _))

/-- Parsing the serialization of a path with nonempty segments recovers the
segments. -/
theorem pathParse_pathToString (p : List Str) (h : ∀ s ∈ p, s ≠ []) :
    pathParse (pathToString p) = p := by
  rw [pathParse, tokenize_pathToString p h]
  cases p with
  | nil => rfl
  | cons s ss =>
    simp only [List.filterMap_cons]
    induction ss with
    | nil => rfl
    | cons t ts ih => simp_all [List.filterMap_cons]

/-- Embedding of the `PathElement<T>` shape (path.ts lines 310-314): a name
plus an insertion-ordered attribute mapping whose values may be `null`
(a bare flag, modelled as `none`).  A JS `Map` is modelled as an association
list with distinct keys, in insertion order. -/
structure PElemG (T : Type) where
  name : T
  attr : List (Str × Option T)
deriving DecidableEq, Repr

/-- The concrete, string-valued element (`PathElementString`). -/
abbrev MElem := PElemG Str

/-- Embedding of `Map.prototype.get`: `none` is JS `undefined` (key absent),
`some none` is a stored `null` (bare flag), `some (some v)` a stored value. -/
def attrGet {T : Type} (m : List (Str × Option T)) (k : Str) : Option (Option T) :=
  (m.find? fun p => decide (p.1 = k)).map (·.2)

/-- Embedding of `Map.prototype.set`: update in place if the key is present
(insertion order kept), append otherwise. -/
def mapSet {T : Type} (m : List (Str × Option T)) (k : Str) (v : Option T) :
    List (Str × Option T) :=
  if m.any (fun p => decide (p.1 = k)) then
    m.map fun p => if p.1 = k then (k, v) else p
  else
    m ++ [(k, v)]

/-- Embedding of the builder token stream seen by `MatrixPathBuilder`: a
`CHAR_SEQUENCE` token becomes a value, an `OPERATOR` token an operator. -/
inductive BToken (T : Type) where
  | val (v : T)
  | op (c : Char)
deriving DecidableEq, Repr

/-- Embedding of the mutable fields of `MatrixPathBuilder` (path.ts lines
376-394). -/
structure BState (T : Type) where
  name : Option T
  attr : List (Str × Option T)
  attrName : Option Str
  path : List (PElemG T)
  lastDelim : Char
deriving Repr, DecidableEq

/-- Embedding of the builder's initial state (constructor, path.ts lines
386-394): empty output, empty attribute map, no pending names, last
delimiter `/`. -/
def initB (T : Type) : BState T := ⟨none, [], none, [], '/'⟩

/-- Embedding of `MatrixPathBuilder.addOperator` (path.ts lines 396-398). -/
def addOperator {T : Type} (s : BState T) (c : Char) : BState T :=
  { s with lastDelim := c }

/-- Embedding of `MatrixPathBuilder.addValue` (path.ts lines 400-420); the
`throw new Error('unexpected =')` becomes an `Except.error`, and a last
delimiter outside the three `switch` cases falls through leaving the state
unchanged. -/
def addValue {T : Type} (nameof : T → Str) (s : BState T) (v : T) :
    Except String (BState T) :=
  if s.lastDelim = '=' then
    match s.attrName with
    | none => .error "unexpected ="
    | some k => .ok { s with attr := mapSet s.attr k (some v), attrName := none }
  else if s.lastDelim = ';' then
    .ok { s with
          attr := match s.attrName with
                  | some k => mapSet s.attr k none
                  | none => s.attr,
          attrName := some (nameof v) }
  else if s.lastDelim = '/' then
    .ok (match s.name with
      | some n =>
        { name := some v, attr := [], attrName := none,
          path := s.path ++ [⟨n, s.attr⟩], lastDelim := s.lastDelim }
      | none => { s with name := some v })
  else
    .ok s

/-- Embedding of `MatrixPathBuilder.build` (path.ts lines 422-426): commit a
still-pending attribute key as a bare flag, then the pending element. -/
def buildB {T : Type} (s : BState T) : List (PElemG T) :=
  let attr := match s.attrName with
              | some k => mapSet s.attr k none
              | none => s.attr
  match s.name with
  | some n => s.path ++ [⟨n, attr⟩]
  | none => s.path

/-- One builder step, dispatching on the token kind as the parse loop in
`MatrixPath.parse` does (path.ts lines 434-437). -/
def processTok {T : Type} (nameof : T → Str) (s : BState T) (t : BToken T) :
    Except String (BState T) :=
  match t with
  | .val v => addValue nameof s v
  | .op c => .ok (addOperator s c)

/-- The builder run over a token stream, stopping at the first error (a JS
`throw` aborts the `for` loop of `MatrixPath.parse`). -/
def processList {T : Type} (nameof : T → Str) (s : BState T) :
    List (BToken T) → Except String (BState T)
  | [] => .ok s
  | t :: ts =>
    match processTok nameof s t with
    | .ok s2 => processList nameof s2 ts
    | .error e => .error e

/-- Run the builder from the initial state and finish with `build`. -/
def runBuilder {T : Type} (nameof : T → Str) (ts : List (BToken T)) :
    Except String (List (PElemG T)) :=
  (processList nameof (initB T) ts).map buildB

/-- Conversion from tokenizer tokens to builder tokens, as performed by the
parse loop of `MatrixPath.parse`. -/
def tokToB (t : Tok) : BToken Str :=
  match t with
  | .lit v => .val v
  | .op c => .op c

/-- Embedding of `MatrixPath.parse` (path.ts lines 432-439) at the default
escape `\`. -/
def mpParse (s : Str) : Except String (List MElem) :=
  runBuilder id ((tokensFromString s (some '\\') mpOps).map tokToB)

/-- Embedding of JS string coercion `String(value)` on a `string | null`
attribute value, as used by `mapAttr` in `MatrixPath.toString`. -/
def jsStr : Option Str → Str
  | some v => v
  | none => ['n', 'u', 'l', 'l']

/-- Embedding of `mapAttr` in `MatrixPath.toString` (path.ts lines
443-445). -/
def mapAttrStr (a : Str × Option Str) : Str :=
  escapeStr '\\' mpOps a.1 ++ '=' :: escapeStr '\\' mpOps (jsStr a.2)

/-- Embedding of `mapElement` in `MatrixPath.toString` (path.ts lines
447-452). -/
def mapElemStr (e : MElem) : Str :=
  escapeStr '\\' mpOps e.name
    ++ (if e.attr.length > 0 then ';' :: joinChar ';' (e.attr.map mapAttrStr) else [])

/-- Embedding of `MatrixPath.toString` (path.ts lines 441-455) at the
default escape and operator configuration. -/
def mpToString (p : List MElem) : Str :=
  joinChar '/' (p.map mapElemStr)

instance {α β : Type} [DecidableEq α] [DecidableEq β] : DecidableEq (Except α β) := fun x y =>
  match x, y with
  | .ok a, .ok b =>
    if h : a = b then isTrue (by rw [h]) else isFalse (by simp [h])
  | .error a, .error b =>
    if h : a = b then isTrue (by rw [h]) else isFalse (by simp [h])
  | .ok _, .error _ => isFalse (by simp)
  | .error _, .ok _ => isFalse (by simp)

example : mpParse ('a' :: ';' :: 'v' :: '=' :: '1' :: '/' :: 'b' :: [])
    = .ok [⟨['a'], [(['v'], some ['1'])]⟩, ⟨['b'], []⟩] := by decide

example : mpParse ['a', ';', 'f', '/', 'b'] = .ok [⟨['a'], []⟩, ⟨['b'], []⟩] := by
  decide

example : mpParse ['a', ';', 'f'] = .ok [⟨['a'], [(['f'], none)]⟩] := by decide

example : mpToString [⟨['a'], [(['f'], none)]⟩] = ['a', ';', 'f', '=', 'n', 'u', 'l', 'l'] := by
  decide

example : mpParse ['=', 'x'] = .error "unexpected =" := by decide

example : mpParse ['a', ';', ';', 'b'] = .ok [⟨['a'], [(['b'], none)]⟩] := by decide

/-- The tokenizer tokens produced by the attribute part of one serialized
matrix element. -/
def attrToksT (attrs : List (Str × Option Str)) : List Tok :=
  attrs.flatMap fun a => [Tok.op ';', Tok.lit a.1, Tok.op '=', Tok.lit (jsStr a.2)]

/-- The tokenizer tokens produced by a whole serialized matrix path. -/
def pathToksT : List MElem → List Tok
  | [] => []
  | e :: es =>
    Tok.lit e.name :: attrToksT e.attr
      ++ es.flatMap fun e2 => Tok.op '/' :: Tok.lit e2.name :: attrToksT e2.attr

/-- The builder tokens of the attribute part of one matrix element. -/
def attrToksB (attrs : List (Str × Option Str)) : List (BToken Str) :=
  attrs.flatMap fun a => [.op ';', .val a.1, .op '=', .val (jsStr a.2)]

/-- The builder tokens of one matrix element. -/
def elemToksB (e : MElem) : List (BToken Str) :=
  .val e.name :: attrToksB e.attr

/-- The builder tokens of a whole matrix path. -/
def pathToksB : List MElem → List (BToken Str)
  | [] => []
  | e :: es => elemToksB e ++ es.flatMap fun e2 => .op '/' :: elemToksB e2

/-- A serialization-safe attribute: nonempty key, non-`null` nonempty
value. -/
def okAttr (a : Str × Option Str) : Prop :=
  a.1 ≠ [] ∧ ∃ w, a.2 = some w ∧ w ≠ []

/-- A serialization-safe matrix element: nonempty name, distinct attribute
keys (the `Map` invariant), serialization-safe attributes. -/
def okElem (e : MElem) : Prop :=
  e.name ≠ [] ∧ (e.attr.map (·.1)).Nodup ∧ ∀ a ∈ e.attr, okAttr a

/-- A serialization-safe matrix path. -/
def okMPath (p : List MElem) : Prop := ∀ e ∈ p, okElem e

/-- Rewriting `mapElement` in flat form: name then `;`-prefixed attribute chunks. -/
theorem mapElemStr_eq (e : MElem) :
    mapElemStr e
      = escapeStr '\\' mpOps e.name ++ e.attr.flatMap (fun a => ';' :: mapAttrStr a) := by
  cases h : e.attr with
  | nil => simp [mapElemStr, h]
  | cons a as =>
    simp only [mapElemStr, h, List.length_cons, List.map_cons, joinChar_cons]
    simp [List.flatMap_map, Nat.succ_ne_zero]

/-- A character stream whose head is an unescaped operator (or which is
empty) first flushes any pending literal buffer. -/
def flushes (rest : Str) : Prop :=
  ∀ b : Str, b ≠ [] →
    tokenizeAux (some '\\') mpOps rest b = .lit b :: tokenizeAux (some '\\') mpOps rest []

theorem flushes_nil : flushes [] := by
  intro b hb
  simp [tok_nil, hb]

theorem flushes_op (c : Char) (t : Str) (h1 : ¬ (some '\\' : Option Char) = some c)
    (h2 : c ∈ mpOps) : flushes (c :: t) := by
  intro b hb
  rw [tok_op _ _ _ _ _ h1 h2, tok_op _ _ _ _ _ h1 h2]
  simp [hb]

/-- Tokenizing the attribute chunks of one matrix element, starting with a
nonempty pending literal, yields the pending literal followed by the
attribute tokens. -/
theorem tokenize_attrs :
    ∀ (attrs : List (Str × Option Str)), (∀ a ∈ attrs, a.1 ≠ [] ∧ jsStr a.2 ≠ []) →
      ∀ (rest : Str), flushes rest → ∀ (buf : Str), buf ≠ [] →
        tokenizeAux (some '\\') mpOps (attrs.flatMap (fun a => ';' :: mapAttrStr a) ++ rest) buf
          = .lit buf :: attrToksT attrs ++ tokenizeAux (some '\\') mpOps rest []
  | [], _, rest, hrest, buf, hb => by
    simpa [attrToksT] using hrest buf hb
  | a :: as, h, rest, hrest, buf, hb => by
    have hsemi : ¬ (some '\\' : Option Char) = some ';' := by decide
    have hsemim : ';' ∈ mpOps := by decide
    have heq : ¬ (some '\\' : Option Char) = some '=' := by decide
    have heqm : '=' ∈ mpOps := by decide
    simp only [List.flatMap_cons, List.cons_append, List.append_assoc]
    rw [tok_op _ _ _ _ _ hsemi hsemim, if_neg hb]
    rw [show mapAttrStr a ++ (as.flatMap (fun x => ';' :: mapAttrStr x) ++ rest)
          = escapeStr '\\' mpOps a.1
            ++ ('=' :: (escapeStr '\\' mpOps (jsStr a.2)
                  ++ (as.flatMap (fun x => ';' :: mapAttrStr x) ++ rest))) by
        simp [mapAttrStr]]
    rw [tokenizeAux_escaped '\\' mpOps a.1 _ []]
    simp only [List.nil_append]
    rw [tok_op _ _ _ _ _ heq heqm, if_neg (h a (List.mem_cons_self _ _)).1]
    rw [tokenizeAux_escaped '\\' mpOps (jsStr a.2) _ []]
    simp only [List.nil_append]
    rw [tokenize_attrs as (fun x hx => h x (List.mem_cons_of_mem _ hx)) rest hrest
      (jsStr a.2) (h a (List.mem_cons_self _ _)).2]
    simp [attrToksT]

/-- Elementwise nonemptiness conditions needed by the tokenizer. -/
theorem okElem_tok {e : MElem} (h : okElem e) :
    e.name ≠ [] ∧ ∀ a ∈ e.attr, a.1 ≠ [] ∧ jsStr a.2 ≠ [] := by
  refine ⟨h.1, fun a ha => ⟨(h.2.2 a ha).1, ?_⟩⟩
  obtain ⟨w, hw, hwne⟩ := (h.2.2 a ha).2
  simp [jsStr, hw, hwne]

/-- The `/`-prefixed remainder of a serialized matrix path starts with an
operator or is empty, so it flushes any pending literal. -/
theorem flushes_mp_rest (es : List MElem) :
    flushes (es.flatMap fun e2 => '/' :: mapElemStr e2) := by
  cases es with
  | nil => exact flushes_nil
  | cons e es2 =>
    simp only [List.flatMap_cons, List.cons_append]
    exact flushes_op '/' _ (by decide) (by decide)

/-- Tokenizing the `/`-prefixed remainder of a serialized matrix path. -/
theorem tokenize_mp_rest :
    ∀ (es : List MElem), (∀ e ∈ es, okElem e) →
      tokenizeAux (some '\\') mpOps (es.flatMap fun e2 => '/' :: mapElemStr e2) []
        = es.flatMap fun e2 => Tok.op '/' :: Tok.lit e2.name :: attrToksT e2.attr
  | [], _ => by simp [tok_nil]
  | e :: es, h => by
    have hok := okElem_tok (h e (List.mem_cons_self _ _))
    simp only [List.flatMap_cons, List.cons_append, List.append_assoc]
    rw [tok_op _ _ _ _ _ (by decide) (by decide : '/' ∈ mpOps), if_pos rfl]
    rw [mapElemStr_eq, List.append_assoc]
    rw [tokenizeAux_escaped '\\' mpOps e.name _ []]
    simp only [List.nil_append]
    rw [tokenize_attrs e.attr hok.2 _ (flushes_mp_rest es) e.name hok.1]
    rw [tokenize_mp_rest es (fun x hx => h x (List.mem_cons_of_mem _ hx))]
    simp

/-- Tokenizing a serialized matrix path with serialization-safe elements
yields the expected interleaved token stream. -/
theorem tokenize_mpToString (p : List MElem) (h : okMPath p) :
    tokensFromString (mpToString p) (some '\\') mpOps = pathToksT p := by
  cases p with
  | nil => simp [mpToString, joinChar, tokensFromString, tok_nil, pathToksT]
  | cons e es =>
    have hok := okElem_tok (h e (List.mem_cons_self _ _))
    show tokenizeAux _ _ _ [] = _
    rw [mpToString, List.map_cons, joinChar_cons]
    rw [show (List.map mapElemStr es).flatMap (fun t => '/' :: t)
          = es.flatMap (fun e2 => '/' :: mapElemStr e2) by simp [List.flatMap_map]]
    rw [mapElemStr_eq, List.append_assoc]
    rw [tokenizeAux_escaped '\\' mpOps e.name _ []]
    simp only [List.nil_append]
    rw [tokenize_attrs e.attr hok.2 _ (flushes_mp_rest es) e.name hok.1]
    rw [tokenize_mp_rest es (fun x hx => h x (List.mem_cons_of_mem _ hx))]
    simp [pathToksT]

/-- Setting a fresh key appends: `Map.set` appends when the key is fresh. -/
theorem mapSet_fresh {T : Type} (m : List (Str × Option T)) (k : Str) (v : Option T)
    (h : k ∉ m.map (·.1)) : mapSet m k v = m ++ [(k, v)] := by
  rw [mapSet, if_neg]
  simp only [List.any_eq_true, decide_eq_true_eq, not_exists, not_and]
  intro p hp hpk
  exact h (by simpa [hpk] using List.mem_map_of_mem (·.1) hp)

/-- The builder run distributes over appended token streams, propagating the
first error. -/
theorem processList_append {T : Type} (nameof : T → Str) (s : BState T)
    (l1 l2 : List (BToken T)) :
    processList nameof s (l1 ++ l2)
      = match processList nameof s l1 with
        | .ok s2 => processList nameof s2 l2
        | .error e => .error e := by
  induction l1 generalizing s with
  | nil => simp [processList]
  | cons t l1 ih =>
    cases h : processTok nameof s t with
    | ok s2 => simp [processList, h, ih s2]
    | error e => simp [processList, h]

/-- Replaying the attribute tokens of one element extends the pending
attribute map in insertion order and clears the pending attribute key. -/
theorem builder_attrs :
    ∀ (attrs : List (Str × Option Str)) (n : Str) (m : List (Str × Option Str))
      (path : List MElem) (d : Char),
      (∀ a ∈ attrs, ∃ w, a.2 = some w) →
      (∀ a ∈ attrs, a.1 ∉ m.map (·.1)) →
      (attrs.map (·.1)).Nodup →
      ∃ d2, processList id ⟨some n, m, none, path, d⟩ (attrToksB attrs)
        = .ok ⟨some n, m ++ attrs, none, path, d2⟩
  | [], n, m, path, d, _, _, _ => ⟨d, by simp [attrToksB, processList]⟩
  | (k, v) :: as, n, m, path, d, hv, hd, hnd => by
    obtain ⟨w, hw⟩ := hv (k, v) (List.mem_cons_self _ _)
    simp only at hw
    have hfresh : k ∉ m.map (·.1) := hd (k, v) (List.mem_cons_self _ _)
    have step :
        processList id (⟨some n, m, none, path, d⟩ : BState Str)
            (attrToksB ((k, v) :: as))
          = processList id ⟨some n, m ++ [(k, some w)], none, path, '='⟩ (attrToksB as) := by
      simp only [attrToksB, List.flatMap_cons]
      rw [show ([.op ';', .val k, .op '=', .val (jsStr (k, v).2)] : List (BToken Str))
            ++ as.flatMap (fun a => [.op ';', .val a.1, .op '=', .val (jsStr a.2)])
            = .op ';' :: .val k :: .op '=' :: .val (jsStr (k, v).2)
                :: as.flatMap (fun a => [.op ';', .val a.1, .op '=', .val (jsStr a.2)]) by
          simp]
      simp [processList, processTok, addOperator, addValue, hw, jsStr,
        mapSet_fresh m k (some w) hfresh, attrToksB]
    rw [step]
    have hd2 : ∀ a ∈ as, a.1 ∉ (m ++ [(k, some w)]).map (·.1) := by
      intro a ha
      simp only [List.map_append, List.mem_append, List.map_cons, List.map_nil,
        List.mem_singleton, not_or]
      refine ⟨fun hm => hd a (List.mem_cons_of_mem _ ha) hm, ?_⟩
      intro hak
      have : k ∈ as.map (·.1) := hak ▸ List.mem_map_of_mem (·.1) ha
      exact (List.nodup_cons.mp (by simpa using hnd)).1 this
    obtain ⟨d2, hrun⟩ := builder_attrs as n (m ++ [(k, some w)]) path '='
      (fun a ha => hv a (List.mem_cons_of_mem _ ha)) hd2
      (List.nodup_cons.mp (by simpa using hnd)).2
    refine ⟨d2, ?_⟩
    rw [hrun]
    simp [hw]

/-- Extract the value-side conditions of a serialization-safe element for the
builder replay. -/
theorem okElem_builder {e : MElem} (h : okElem e) :
    (∀ a ∈ e.attr, ∃ w, a.2 = some w) ∧ (e.attr.map (·.1)).Nodup := by
  refine ⟨fun a ha => ?_, h.2.1⟩
  obtain ⟨w, hw, _⟩ := (h.2.2 a ha).2
  exact ⟨w, hw⟩

/-- Replaying the `/`-prefixed remainder of the token stream commits the
pending element, then each further element in order. -/
theorem builder_rest :
    ∀ (es : List MElem) (n : Str) (m : List (Str × Option Str)) (path : List MElem)
      (d0 : Char), okMPath es →
      (processList id ⟨some n, m, none, path, d0⟩
          (es.flatMap fun e2 => .op '/' :: elemToksB e2)).map buildB
        = .ok (path ++ ⟨n, m⟩ :: es)
  | [], n, m, path, d0, _ => by
    simp [processList, buildB, Except.map]
  | e :: es, n, m, path, d0, h => by
    have hok := okElem_builder (h e (List.mem_cons_self _ _))
    simp only [List.flatMap_cons, List.cons_append, List.append_assoc]
    rw [show (BToken.op '/' :: (elemToksB e
            ++ es.flatMap fun e2 => .op '/' :: elemToksB e2) : List (BToken Str))
          = (BToken.op '/' :: BToken.val e.name :: attrToksB e.attr)
            ++ es.flatMap (fun e2 => .op '/' :: elemToksB e2) by
        simp [elemToksB]]
    rw [processList_append]
    rw [show processList id (⟨some n, m, none, path, d0⟩ : BState Str)
          (BToken.op '/' :: BToken.val e.name :: attrToksB e.attr)
          = processList id ⟨some e.name, [], none, path ++ [⟨n, m⟩], '/'⟩
              (attrToksB e.attr) by
        simp [processList, processTok, addOperator, addValue]]
    obtain ⟨d2, hrun⟩ := builder_attrs e.attr e.name [] (path ++ [⟨n, m⟩]) '/'
      hok.1 (by simp) hok.2
    rw [hrun]
    have := builder_rest es e.name e.attr (path ++ [⟨n, m⟩]) d2
      (fun x hx => h x (List.mem_cons_of_mem _ hx))
    simpa using this

/-- Replaying the whole token stream of a serialization-safe matrix path
rebuilds exactly its elements. -/
theorem runBuilder_pathToksB (p : List MElem) (h : okMPath p) :
    runBuilder id (pathToksB p) = .ok p := by
  cases p with
  | nil => simp [pathToksB, runBuilder, processList, initB, buildB, Except.map]
  | cons e es =>
    have hok := okElem_builder (h e (List.mem_cons_self _ _))
    rw [runBuilder, pathToksB]
    rw [show (elemToksB e ++ es.flatMap fun e2 => .op '/' :: elemToksB e2)
          = (BToken.val e.name :: attrToksB e.attr)
            ++ es.flatMap (fun e2 => .op '/' :: elemToksB e2) by
        simp [elemToksB]]
    rw [processList_append]
    rw [show processList id (initB Str) (BToken.val e.name :: attrToksB e.attr)
          = processList id ⟨some e.name, [], none, [], '/'⟩ (attrToksB e.attr) by
        simp [processList, processTok, addValue, initB]]
    obtain ⟨d2, hrun⟩ := builder_attrs e.attr e.name [] [] '/' hok.1 (by simp) hok.2
    rw [hrun]
    have := builder_rest es e.name e.attr [] d2
      (fun x hx => h x (List.mem_cons_of_mem _ hx))
    simpa using this

/-- The builder tokens of a serialized matrix path are the mapped tokenizer
tokens. -/
theorem pathToksT_map (p : List MElem) :
    (pathToksT p).map tokToB = pathToksB p := by
  cases p with
  | nil => simp [pathToksT, pathToksB]
  | cons e es =>
    simp [pathToksT, pathToksB, elemToksB, attrToksT, attrToksB, tokToB,
      List.map_flatMap]

/-- Full matrix-path round trip: parsing the serialization of a
serialization-safe matrix path recovers exactly its elements. -/
theorem mpParse_mpToString (p : List MElem) (h : okMPath p) :
    mpParse (mpToString p) = .ok p := by
  rw [mpParse, tokenize_mpToString p h, pathToksT_map, runBuilder_pathToksB p h]

/-- Claim C1, counterexample: the round trip `parse(toString(x)) = x` fails
as stated.  A `Path` containing an empty-string segment serializes to a
string that parses back without that segment, and a matrix element carrying
a bare-flag attribute (`null` value) serializes via `String(null)` to
`name;flag=null`, which parses back with the string value `"null"` instead
of `null`. -/
theorem c1_roundtrip_counterexample :
    pathParse (pathToString [[]]) ≠ [[]]
      ∧ mpParse (mpToString [⟨['a'], [(['f'], none)]⟩])
          ≠ .ok [⟨['a'], [(['f'], none)]⟩] := by
  exact ⟨by decide, by decide⟩

/-- Claim C1 (amended): for every string-valued `Path` whose segments are
all nonempty, and every `MatrixPath` whose element names, attribute keys
and attribute values are nonempty strings with no bare-flag (`null`)
attribute values and distinct keys per element, parsing the serialized form
reproduces the value exactly: `parse(toString(x)) = x`. -/
theorem c1_roundtrip_values :
    (∀ p : List Str, (∀ s ∈ p, s ≠ []) → pathParse (pathToString p) = p)
      ∧ (∀ mp : List MElem, okMPath mp → mpParse (mpToString mp) = .ok mp) :=
  ⟨pathParse_pathToString, mpParse_mpToString⟩

/-- Claim C1, witness: the amended round trip evaluated at concrete values,
including segments containing the delimiter and the escape character. -/
theorem c1_roundtrip_values_witness :
    pathParse (pathToString [['a', '/', 'b'], ['c', '\\']]) = [['a', '/', 'b'], ['c', '\\']]
      ∧ mpParse (mpToString [⟨['a'], [(['v'], some ['1'])]⟩, ⟨['x', ';'], []⟩])
          = .ok [⟨['a'], [(['v'], some ['1'])]⟩, ⟨['x', ';'], []⟩] := by
  refine ⟨c1_roundtrip_values.1 _ (by decide), c1_roundtrip_values.2 _ ?_⟩
  intro e he
  simp only [List.mem_cons, List.not_mem_nil, or_false] at he
  rcases he with he | he <;> subst he
  · exact ⟨by decide, by decide, fun a ha => by
      simp only [List.mem_singleton] at ha
      subst ha
      exact ⟨by decide, ['1'], rfl, by decide⟩⟩
  · exact ⟨by decide, by decide, fun a ha => by simp at ha⟩

/-- Claim C2, counterexample: `"a//b"` is a valid input under the spec's
own grammar (segments may be empty) and parses without error, but
serializing the parse result yields `"a/b"`, not the original string. -/
theorem c2_roundtrip_counterexample :
    pathToString (pathParse ['a', '/', '/', 'b']) ≠ ['a', '/', '/', 'b'] := by
  decide

/-- Claim C2 (amended): for every input string in canonical serialized form
(the serialization of a path all of whose segments are nonempty: no empty
segments, operators escaped, no superfluous escapes), serializing the parse
result reproduces the string; in particular the empty string parses to an
empty path, `a\/b/c` parses to 2 elements with first element `a/b`, and
`a\\/b/c` parses to 3 elements with first element `a\`. -/
theorem c2_roundtrip_strings :
    (∀ p : List Str, (∀ s ∈ p, s ≠ []) →
        pathToString (pathParse (pathToString p)) = pathToString p)
      ∧ pathParse [] = []
      ∧ pathToString (pathParse []) = []
      ∧ pathParse ['a', '\\', '/', 'b', '/', 'c'] = [['a', '/', 'b'], ['c']]
      ∧ pathToString (pathParse ['a', '\\', '/', 'b', '/', 'c'])
          = ['a', '\\', '/', 'b', '/', 'c']
      ∧ pathParse ['a', '\\', '\\', '/', 'b', '/', 'c'] = [['a', '\\'], ['b'], ['c']]
      ∧ pathToString (pathParse ['a', '\\', '\\', '/', 'b', '/', 'c'])
          = ['a', '\\', '\\', '/', 'b', '/', 'c'] := by
  refine ⟨fun p h => by rw [pathParse_pathToString p h], by decide, by decide, by decide,
    by decide, by decide, by decide⟩

/-- Claim C2, witness: the universally quantified amended round trip
evaluated at a concrete path with nonempty segments. -/
theorem c2_roundtrip_strings_witness :
    pathToString (pathParse (pathToString [['a'], ['b', 'c']]))
      = pathToString [['a'], ['b', 'c']] :=
  c2_roundtrip_strings.1 [['a'], ['b', 'c']] (by decide)

/-- Unfolding lemma: a successful step continues the builder run. -/
theorem processList_cons_ok {T : Type} (nameof : T → Str) (s s2 : BState T)
    (t : BToken T) (ts : List (BToken T)) (h : processTok nameof s t = .ok s2) :
    processList nameof s (t :: ts) = processList nameof s2 ts := by
  rw [processList, h]

/-- Unfolding lemma: a failing step aborts the builder run. -/
theorem processList_cons_err {T : Type} (nameof : T → Str) (s : BState T)
    (t : BToken T) (ts : List (BToken T)) (e : String)
    (h : processTok nameof s t = .error e) :
    processList nameof s (t :: ts) = .error e := by
  rw [processList, h]

/-- A failing `addValue` fails only with message `unexpected =`, and only when the last
delimiter is `=` with no pending attribute key. -/
theorem addValue_error {T : Type} (nameof : T → Str) (s : BState T) (v : T) (e : String)
    (h : addValue nameof s v = .error e) :
    e = "unexpected =" ∧ s.lastDelim = '=' ∧ s.attrName = none := by
  by_cases h1 : s.lastDelim = '='
  · cases h2 : s.attrName with
    | none =>
      rw [addValue, if_pos h1, h2] at h
      exact ⟨by simpa using h.symm, h1, rfl⟩
    | some k => rw [addValue, if_pos h1, h2] at h; cases h
  · by_cases h2 : s.lastDelim = ';'
    · rw [addValue, if_neg h1, if_pos h2] at h; cases h
    · by_cases h3 : s.lastDelim = '/'
      · rw [addValue, if_neg h1, if_neg h2, if_pos h3] at h
        cases hn : s.name <;> rw [hn] at h <;> cases h
      · rw [addValue, if_neg h1, if_neg h2, if_neg h3] at h; cases h

/-- Conversely, a literal arriving on `=` with no pending attribute key
always fails with `unexpected =`. -/
theorem addValue_error_intro {T : Type} (nameof : T → Str) (s : BState T) (v : T)
    (h1 : s.lastDelim = '=') (h2 : s.attrName = none) :
    addValue nameof s v = .error "unexpected =" := by
  rw [addValue, if_pos h1, h2]

/-- Every error of the builder run carries the message `unexpected =`. -/
theorem processList_error_msg {T : Type} (nameof : T → Str) :
    ∀ (ts : List (BToken T)) (s : BState T) (e : String),
      processList nameof s ts = .error e → e = "unexpected ="
  | [], s, e, h => by simp [processList] at h
  | t :: ts, s, e, h => by
    cases ht : processTok nameof s t with
    | ok s2 =>
      rw [processList_cons_ok nameof s s2 t ts ht] at h
      exact processList_error_msg nameof ts s2 e h
    | error e2 =>
      rw [processList_cons_err nameof s t ts e2 ht] at h
      have he : e = e2 := by injection h with h3; exact h3.symm
      subst he
      cases t with
      | val v => exact (addValue_error nameof s v e ht).1
      | op c => simp [processTok] at ht

/-- The builder run fails exactly when some literal token arrives while the
state reached on the tokens before it has last delimiter `=` and no pending
attribute key. -/
theorem processList_error_iff {T : Type} (nameof : T → Str) :
    ∀ (ts : List (BToken T)) (s : BState T),
      (∃ e, processList nameof s ts = .error e)
        ↔ ∃ ts1 v ts2 s1, ts = ts1 ++ .val v :: ts2
            ∧ processList nameof s ts1 = .ok s1
            ∧ s1.lastDelim = '=' ∧ s1.attrName = none
  | [], s => by
    constructor
    · rintro ⟨e, he⟩
      simp [processList] at he
    · rintro ⟨ts1, v, ts2, s1, habs, -⟩
      exact absurd habs.symm (by simp)
  | t :: ts, s => by
    cases t with
    | op c =>
      have hstep : processTok nameof s (.op c) = .ok (addOperator s c) := rfl
      rw [processList_cons_ok nameof s _ _ ts hstep]
      rw [processList_error_iff nameof ts (addOperator s c)]
      constructor
      · rintro ⟨ts1, v, ts2, s1, rfl, hrun, h1, h2⟩
        exact ⟨.op c :: ts1, v, ts2, s1, rfl,
          by rw [processList_cons_ok nameof s _ _ ts1 hstep]; exact hrun, h1, h2⟩
      · rintro ⟨ts1, v, ts2, s1, heq, hrun, h1, h2⟩
        cases ts1 with
        | nil => simp at heq
        | cons t1 ts1 =>
          obtain ⟨rfl, rfl⟩ : BToken.op c = t1 ∧ ts = ts1 ++ .val v :: ts2 := by
            simpa using heq
          rw [processList_cons_ok nameof s _ _ ts1 hstep] at hrun
          exact ⟨ts1, v, ts2, s1, rfl, hrun, h1, h2⟩
    | val v0 =>
      cases hv : addValue nameof s v0 with
      | error e0 =>
        have hstep : processTok nameof s (.val v0) = .error e0 := hv
        rw [processList_cons_err nameof s _ ts e0 hstep]
        have hs := addValue_error nameof s v0 e0 hv
        constructor
        · rintro -
          exact ⟨[], v0, ts, s, rfl, rfl, hs.2.1, hs.2.2⟩
        · rintro -
          exact ⟨e0, rfl⟩
      | ok s2 =>
        have hstep : processTok nameof s (.val v0) = .ok s2 := hv
        rw [processList_cons_ok nameof s _ _ ts hstep]
        rw [processList_error_iff nameof ts s2]
        constructor
        · rintro ⟨ts1, v, ts2, s1, rfl, hrun, h1, h2⟩
          exact ⟨.val v0 :: ts1, v, ts2, s1, rfl,
            by rw [processList_cons_ok nameof s _ _ ts1 hstep]; exact hrun, h1, h2⟩
        · rintro ⟨ts1, v, ts2, s1, heq, hrun, h1, h2⟩
          cases ts1 with
          | nil =>
            have hs1 : s = s1 := by simpa [processList] using hrun
            subst hs1
            rw [addValue_error_intro nameof s v0 h1 h2] at hv
            cases hv
          | cons t1 ts1 =>
            obtain ⟨rfl, rfl⟩ : BToken.val v0 = t1 ∧ ts = ts1 ++ .val v :: ts2 := by
              simpa using heq
            rw [processList_cons_ok nameof s _ _ ts1 hstep] at hrun
            exact ⟨ts1, v, ts2, s1, rfl, hrun, h1, h2⟩

/-- The builder's finishing step never fails: `runBuilder` fails exactly when
the token replay fails, with the same message. -/
theorem runBuilder_error {T : Type} (nameof : T → Str) (ts : List (BToken T)) (e : String) :
    runBuilder nameof ts = .error e ↔ processList nameof (initB T) ts = .error e := by
  rw [runBuilder]
  cases processList nameof (initB T) ts <;> simp [Except.map]

/-- Claim C6: matrix path parsing fails exactly when a literal value arrives
while the most recently seen operator is `=` and no attribute key is
pending; the message is `unexpected =`, it is the only failure, it reaches
the caller unchanged, and no literal token after the offending one affects
the outcome. -/
theorem c6_unexpected_eq :
    (∀ (s : Str) (e : String), mpParse s = .error e → e = "unexpected =")
      ∧ (∀ ts : List (BToken Str),
          (∃ e, runBuilder id ts = .error e)
            ↔ ∃ ts1 v ts2 s1, ts = ts1 ++ .val v :: ts2
                ∧ processList id (initB Str) ts1 = .ok s1
                ∧ s1.lastDelim = '=' ∧ s1.attrName = none)
      ∧ (∀ (ts1 : List (BToken Str)) (v : Str) (ts2 : List (BToken Str)) (s1 : BState Str),
          processList id (initB Str) ts1 = .ok s1 →
          s1.lastDelim = '=' → s1.attrName = none →
          runBuilder id (ts1 ++ .val v :: ts2) = .error "unexpected =") := by
  refine ⟨?_, ?_, ?_⟩
  · intro s e h
    exact processList_error_msg id _ _ e ((runBuilder_error id _ e).mp h)
  · intro ts
    constructor
    · rintro ⟨e, he⟩
      exact (processList_error_iff id ts (initB Str)).mp ⟨e, (runBuilder_error id ts e).mp he⟩
    · intro hdec
      obtain ⟨e, he⟩ := (processList_error_iff id ts (initB Str)).mpr hdec
      exact ⟨e, (runBuilder_error id ts e).mpr he⟩
  · intro ts1 v ts2 s1 hrun h1 h2
    rw [runBuilder_error]
    rw [processList_append, hrun]
    exact processList_cons_err id s1 (.val v) ts2 _ (addValue_error_intro id s1 v h1 h2)

/-- Claim C6, witness: the characterization applied at the concrete stream
of `"a/=x;y"`: the literal `x` arrives on `=` with no pending key, so the
whole parse fails with `unexpected =` whatever follows. -/
theorem c6_unexpected_eq_witness :
    runBuilder id ([.val ['a'], .op '='] ++ .val ['x'] :: [.op ';', .val ['y']])
      = .error "unexpected =" := by
  refine c6_unexpected_eq.2.2 [.val ['a'], .op '='] ['x'] [.op ';', .val ['y']]
    ⟨some ['a'], [], none, [], '='⟩ (by decide) rfl rfl

/-- Claim C8: `addOperator` only records the operator, so consecutive
operator tokens with no literal between them are absorbed: the pending
element name, attribute map, attribute key and output sequence are
untouched, and a run over a stream with two adjacent operators equals the
run with only the second. -/
theorem c8_consecutive_operators :
    (∀ (T : Type) (s : BState T) (c : Char),
        (addOperator s c).name = s.name ∧ (addOperator s c).attr = s.attr
          ∧ (addOperator s c).attrName = s.attrName
          ∧ (addOperator s c).path = s.path)
      ∧ (∀ (T : Type) (nameof : T → Str) (ts1 ts2 : List (BToken T)) (c c2 : Char),
          runBuilder nameof (ts1 ++ .op c :: .op c2 :: ts2)
            = runBuilder nameof (ts1 ++ .op c2 :: ts2)) := by
  constructor
  · intro T s c
    exact ⟨rfl, rfl, rfl, rfl⟩
  · intro T nameof ts1 ts2 c c2
    rw [runBuilder, runBuilder, processList_append, processList_append]
    cases processList nameof (initB T) ts1 with
    | error e => rfl
    | ok s1 => simp [processList, processTok, addOperator]

/-- Embedding of `Path.matches` (path.ts lines 260-266): equal length
required, then every per-position predicate must accept the corresponding
element.  A predicate of `IPredicate<T>` is embedded as `T → Bool`; the
`none` branch of the lookup is unreachable under the length guard (JS would
index in range there). -/
def jsMatches {T : Type} (xs : List T) (ws : List (T → Bool)) : Bool :=
  if xs.length = ws.length then
    ws.enum.all fun (p : ℕ × (T → Bool)) =>
      match xs.get? p.1 with
      | some x => p.2 x
      | none => false
  else false

/-- An indexed `every` over an enumerated list is a pointwise condition. -/
theorem all_enumFrom {α : Type} (f : ℕ × α → Bool) :
    ∀ (l : List α) (n : ℕ),
      (List.enumFrom n l).all f = true ↔ ∀ i x, l.get? i = some x → f (n + i, x) = true
  | [], n => by
    constructor
    · intro _ i x hx
      simp at hx
    · intro _
      rfl
  | a :: l, n => by
    show ((n, a) :: List.enumFrom (n + 1) l).all f = true ↔ _
    rw [List.all_cons, Bool.and_eq_true, all_enumFrom f l (n + 1)]
    constructor
    · rintro ⟨h0, hr⟩ i x hx
      cases i with
      | zero =>
        obtain rfl : a = x := by simpa using hx
        simpa using h0
      | succ j =>
        have h2 := hr j x (by simpa using hx)
        have e1 : n + 1 + j = n + (j + 1) := by omega
        rw [e1] at h2
        exact h2
    · intro h
      refine ⟨by simpa using h 0 a rfl, fun j x hx => ?_⟩
      have h2 := h (j + 1) x (by simpa using hx)
      have e1 : n + (j + 1) = n + 1 + j := by omega
      rw [e1] at h2
      exact h2

/-- The indexed `every` over `enum` in particular. -/
theorem all_enum {α : Type} (f : ℕ × α → Bool) (l : List α) :
    l.enum.all f = true ↔ ∀ i x, l.get? i = some x → f (i, x) = true := by
  rw [show l.enum = List.enumFrom 0 l from rfl, all_enumFrom]
  constructor <;> intro h i x hx <;> simpa using h i x hx

/-- Claim C4: `matches` is true exactly when the lengths agree and every
per-position predicate accepts the element at its position; a predicate
path of different length never matches, regardless of content. -/
theorem c4_matches_iff :
    (∀ (T : Type) (xs : List T) (ws : List (T → Bool)),
        jsMatches xs ws = true
          ↔ xs.length = ws.length
            ∧ ∀ i x w, xs.get? i = some x → ws.get? i = some w → w x = true)
      ∧ (∀ (T : Type) (xs : List T) (ws : List (T → Bool)),
          xs.length ≠ ws.length → jsMatches xs ws = false) := by
  constructor
  · intro T xs ws
    by_cases hlen : xs.length = ws.length
    · rw [jsMatches, if_pos hlen]
      rw [all_enum (fun (p : ℕ × (T → Bool)) => match xs.get? p.1 with
        | some x => p.2 x
        | none => false) ws]
      constructor
      · intro h
        refine ⟨hlen, fun i x w hx hw => ?_⟩
        have h2 := h i w hw
        have hx2 : xs[i]? = some x := by simpa using hx
        simpa [hx2] using h2
      · rintro ⟨-, h⟩ i w hw
        obtain ⟨hi, -⟩ := List.get?_eq_some.mp hw
        have hix : i < xs.length := hlen ▸ hi
        have hx : xs.get? i = some (xs.get ⟨i, hix⟩) := List.get?_eq_get hix
        have h2 := h i (xs.get ⟨i, hix⟩) w hx hw
        have hx2 : xs[i]? = some (xs.get ⟨i, hix⟩) := by simpa using hx
        simpa [hx2] using h2
    · rw [jsMatches, if_neg hlen]
      constructor
      · intro h
        exact (Bool.false_ne_true h).elim
      · rintro ⟨h, -⟩
        exact absurd h hlen
  · intro T xs ws h
    rw [jsMatches, if_neg h]

/-- Claim C4, witness: a pattern path longer than the concrete path never
matches, and a matching pair of equal length does. -/
theorem c4_matches_witness :
    jsMatches ([0] : List Nat) ([] : List (Nat → Bool)) = false :=
  c4_matches_iff.2 Nat [0] [] (by decide)

/-- Embedding of pattern objects for `PathElementPattern`: patterns are
opaque external values compared by JS reference (`===`) and by their
`equals`/`test` methods.  A reference is a natural number; a `PatternStore`
gives the external engine's `test` and `equals` semantics for each
reference. -/
structure PatternStore where
  test : Nat → Str → Bool
  eq : Nat → Nat → Bool

/-- Embedding of `PathElementPattern` (path.ts lines 332-337): a name
pattern reference and an attribute map from keys to pattern references or
`null` (bare flag). -/
structure PElemP where
  name : Nat
  attr : List (Str × Option Nat)
deriving DecidableEq, Repr

/-- Embedding of `PathElementPattern.test` (path.ts lines 338-345): the name
pattern must accept the concrete name, and each attribute pattern must
match: a `null` pattern only a `null` value, a non-`null` pattern only a
present non-`null` value it accepts. -/
def pepTest (S : PatternStore) (q : PElemP) (e : MElem) : Bool :=
  S.test q.name e.name
    && q.attr.all fun a =>
      match a.2, attrGet e.attr a.1 with
      | none, some none => true
      | none, _ => false
      | some _, none => false
      | some _, some none => false
      | some p, some (some v) => S.test p v

/-- Appending an attribute with a fresh key does not change lookups of other
keys. -/
theorem attrGet_append_ne {T : Type} (m : List (Str × Option T)) (k a : Str)
    (v : Option T) (h : a ≠ k) : attrGet (m ++ [(k, v)]) a = attrGet m a := by
  induction m with
  | nil => simp [attrGet, List.find?, Ne.symm h]
  | cons p m ih =>
    by_cases hp : p.1 = a
    · simp [attrGet, List.find?, hp]
    · simp only [attrGet, List.cons_append, List.find?] at ih ⊢
      rw [show (decide (p.1 = a)) = false by simpa using hp]
      exact ih

/-- Pointwise equal predicates give equal `every` results. -/
theorem all_congr_list {α : Type} {l : List α} {f g : α → Bool}
    (h : ∀ x ∈ l, f x = g x) : l.all f = l.all g := by
  induction l with
  | nil => rfl
  | cons a l ih =>
    rw [List.all_cons, List.all_cons, h a (List.mem_cons_self _ _),
      ih fun x hx => h x (List.mem_cons_of_mem _ hx)]

/-- Claim C5: a pattern element accepts a concrete element exactly when the
name pattern accepts the name and every attribute pattern in the pattern
element is satisfied (`null` matches only a present `null`, a pattern only a
present non-`null` accepted value); attributes of the concrete element not
mentioned in the pattern are ignored. -/
theorem c5_test_iff :
    (∀ (S : PatternStore) (q : PElemP) (e : MElem),
        pepTest S q e = true
          ↔ S.test q.name e.name = true
            ∧ ∀ a ∈ q.attr,
                match a.2 with
                | none => attrGet e.attr a.1 = some none
                | some p => ∃ v, attrGet e.attr a.1 = some (some v) ∧ S.test p v = true)
      ∧ (∀ (S : PatternStore) (q : PElemP) (e : MElem) (k : Str) (v : Option Str),
          (∀ a ∈ q.attr, a.1 ≠ k) →
          pepTest S q ⟨e.name, e.attr ++ [(k, v)]⟩ = pepTest S q e) := by
  constructor
  · intro S q e
    rw [pepTest, Bool.and_eq_true, List.all_eq_true]
    refine and_congr Iff.rfl (ball_congr fun a _ => ?_)
    cases ha : a.2 with
    | none =>
      cases hg : attrGet e.attr a.1 with
      | none => simp [hg]
      | some w => cases w <;> simp [hg]
    | some p =>
      cases hg : attrGet e.attr a.1 with
      | none => simp [hg]
      | some w => cases w <;> simp [hg]
  · intro S q e k v h
    rw [pepTest, pepTest]
    show (S.test q.name e.name && _) = (S.test q.name e.name && _)
    congr 1
    apply all_congr_list
    intro a ha
    rw [show attrGet (e.attr ++ [(k, v)]) a.1 = attrGet e.attr a.1 from
      attrGet_append_ne e.attr k a.1 v (h a ha)]

/-- Claim C5, witness: ignoring an extra concrete attribute, applied at a
concrete pattern and element. -/
theorem c5_test_witness :
    pepTest ⟨fun _ _ => true, fun _ _ => true⟩ ⟨0, [(['v'], some 1)]⟩
        ⟨['a'], [(['v'], some ['1']), (['w'], none)]⟩
      = pepTest ⟨fun _ _ => true, fun _ _ => true⟩ ⟨0, [(['v'], some 1)]⟩
        ⟨['a'], [(['v'], some ['1'])]⟩ :=
  c5_test_iff.2 ⟨fun _ _ => true, fun _ _ => true⟩ ⟨0, [(['v'], some 1)]⟩
    ⟨['a'], [(['v'], some ['1'])]⟩ ['w'] none (by decide)

/-- Embedding of `PathElementPattern.equals` (path.ts lines 355-367).  The
first line of the source is `if (this.name === other.name) return true;`, a
reference comparison of the two name patterns; the subsequent
`!this.name || !other.name` guard cannot fire for elements built with
actual pattern objects (references are always truthy) and is omitted.  Per
attribute key, `patA === patB` is reference (or `undefined`/`null`)
equality, a falsy side fails, and otherwise the external `equals` decides. -/
def pepEquals (S : PatternStore) (a b : PElemP) : Bool :=
  if a.name = b.name then true
  else
    S.eq a.name b.name
      && decide (a.attr.length = b.attr.length)
      && (a.attr.map (·.1)).all fun k =>
        let pa := attrGet a.attr k
        let pb := attrGet b.attr k
        if pa = pb then true
        else
          match pa, pb with
          | some (some x), some (some y) => S.eq x y
          | _, _ => false

/-- Claim C7: the identity shortcut on the first line of
`PathElementPattern.equals` compares the *names* instead of the elements,
so two pattern elements sharing the same name pattern object compare equal
even though their attribute mappings differ — here one carries attribute
`v` and the other carries none, yet `equals` returns `true` even under a
pattern store whose `equals` is never true. -/
theorem c7_equals_shortcut_eval :
    pepEquals ⟨fun _ _ => true, fun _ _ => false⟩ ⟨0, [(['v'], some 1)]⟩ ⟨0, []⟩ = true
      ∧ attrGet ([(['v'], some 1)] : List (Str × Option Nat)) ['v']
          ≠ attrGet ([] : List (Str × Option Nat)) ['v'] := by
  exact ⟨by decide, by decide⟩

/-- The concrete subclasses of `Path<T>` in path.ts: `Path`, `PatternPath`,
`MatrixPath`, `MatrixPathPattern`.  `_createPath` instantiates
`this.constructor`, so the class is carried by each instance. -/
inductive PathClass where
  | plain
  | patternPath
  | matrix
  | matrixPattern
deriving DecidableEq, Repr

/-- A heap of JS arrays, addressed by allocation index, to make array
aliasing and mutation observable. -/
structure HeapT (T : Type) where
  arrays : List (List T)
deriving Repr

/-- Reading the array a reference denotes. -/
def HeapT.read {T : Type} (h : HeapT T) (r : Nat) : List T :=
  h.arrays.getD r []

/-- Allocating a fresh array (as `slice`, spread and array literals do). -/
def HeapT.alloc {T : Type} (h : HeapT T) (a : List T) : HeapT T × Nat :=
  (⟨h.arrays ++ [a]⟩, h.arrays.length)

/-- Mutating an existing array in place (something a caller can do to an
array it supplied to the constructor). -/
def HeapT.write {T : Type} (h : HeapT T) (r : Nat) (a : List T) : HeapT T :=
  ⟨h.arrays.set r a⟩

/-- A `Path` object: its concrete class and the reference to its `elements`
array. -/
structure PathObj where
  cls : PathClass
  ref : Nat
deriving DecidableEq, Repr

/-- The three shapes of the constructor argument
`elements : T[] | Iterable<T> | undefined` (path.ts line 148). -/
inductive CtorArg (T : Type) where
  | undef
  | arr (r : Nat)
  | iter (xs : List T)

/-- Embedding of the `Path` constructor (path.ts lines 148-156):
`undefined` allocates an empty array, an array argument is stored as-is
(aliased, no copy), any other iterable is copied into a fresh array. -/
def newPath {T : Type} (h : HeapT T) (c : PathClass) (a : CtorArg T) :
    HeapT T × PathObj :=
  match a with
  | .undef =>
    let al := h.alloc []
    (al.1, ⟨c, al.2⟩)
  | .arr r => (h, ⟨c, r⟩)
  | .iter xs =>
    let al := h.alloc xs
    (al.1, ⟨c, al.2⟩)

/-- Embedding of `Array.prototype.slice(begin, end)` with JS index
normalization: negative indices count from the end, out-of-range indices
clamp. -/
def jsSlice {T : Type} (l : List T) (b : Int) (e : Option Int) : List T :=
  let len : Int := l.length
  let norm : Int → Nat := fun i => if i < 0 then (max (len + i) 0).toNat else min i.toNat l.length
  let b2 := norm b
  let e2 := match e with
            | none => l.length
            | some i => norm i
  (l.take e2).drop b2

example : jsSlice [1, 2, 3] 1 none = [2, 3] := by decide

example : jsSlice [1, 2, 3] 0 (some (-1)) = [1, 2] := by decide

example : jsSlice ([] : List Nat) 0 (some (-1)) = [] := by decide

example : jsSlice [1, 2, 3] 5 none = [] := by decide

/-- The derivation operations of `Path<T>` that return a new path:
`tail`, `parent`, `consume`, `slice`, `add`, `prepend`, `addAll`
(path.ts lines 202-228 and 276-278). -/
inductive PathOp (T : Type) where
  | tailOp
  | parentOp
  | consumeOp (n : Int)
  | sliceOp (b e : Int)
  | addOp (xs : List T)
  | prependOp (x : T)
  | addAllOp (q : PathObj)

/-- Embedding of the derivation operations: each computes a fresh element
array from the receiver's (and for `addAll` the argument's) elements and
passes it to `_createPath` (path.ts lines 178-180), which instantiates
`this.constructor` — the receiver's own concrete class — on the fresh
array. -/
def derive {T : Type} (h : HeapT T) (p : PathObj) (op : PathOp T) :
    HeapT T × PathObj :=
  let es := h.read p.ref
  let res : List T :=
    match op with
    | .tailOp => jsSlice es 1 none
    | .parentOp => jsSlice es 0 (some (-1))
    | .consumeOp n => jsSlice es n none
    | .sliceOp b e => jsSlice es b (some e)
    | .addOp xs => es ++ xs
    | .prependOp x => x :: es
    | .addAllOp q => es ++ h.read q.ref
  let al := h.alloc res
  (al.1, ⟨p.cls, al.2⟩)

/-- Reading a pre-existing reference is unaffected by an allocation. -/
theorem read_alloc {T : Type} (h : HeapT T) (a : List T) (r : Nat)
    (hr : r < h.arrays.length) : (h.alloc a).1.read r = h.read r := by
  unfold HeapT.alloc HeapT.read
  simp only
  rw [List.getD_eq_getElem?_getD, List.getD_eq_getElem?_getD,
    List.getElem?_append_left hr]

/-- Claim C3: every derivation operation returns a path of the receiver's
own concrete class, and leaves the receiver's element sequence unchanged
(the fresh result array is allocated, nothing is written to the receiver's
array). -/
theorem c3_derive_class_and_frame {T : Type} (h : HeapT T) (p : PathObj)
    (op : PathOp T) (hr : p.ref < h.arrays.length) :
    (derive h p op).2.cls = p.cls
      ∧ (derive h p op).1.read p.ref = h.read p.ref := by
  refine ⟨rfl, ?_⟩
  show ((h.alloc _).1).read p.ref = h.read p.ref
  exact read_alloc h _ p.ref hr

/-- Claim C3, witness: `tail` on a concrete two-element matrix-class path
keeps the class and the receiver's elements. -/
theorem c3_derive_witness :
    (derive ⟨[[1, 2]]⟩ ⟨PathClass.matrix, 0⟩ (PathOp.tailOp (T := Nat))).2.cls
        = PathClass.matrix
      ∧ (derive ⟨[[1, 2]]⟩ ⟨PathClass.matrix, 0⟩ (PathOp.tailOp (T := Nat))).1.read 0
          = HeapT.read ⟨[[1, 2]]⟩ 0 := by
  have h := c3_derive_class_and_frame (⟨[[1, 2]]⟩ : HeapT Nat) ⟨PathClass.matrix, 0⟩
    PathOp.tailOp (by decide)
  exact h

/-- Claim C9, counterexample: the constructor stores an array argument
without copying (`this.elements = elements`), so mutating the
caller-supplied array afterwards changes the path's observable elements. -/
theorem c9_alias_counterexample :
    ((newPath (⟨[[0]]⟩ : HeapT Nat) PathClass.plain (.arr 0)).1.write 0 [0, 1]).read
        (newPath (⟨[[0]]⟩ : HeapT Nat) PathClass.plain (.arr 0)).2.ref
      ≠ (newPath (⟨[[0]]⟩ : HeapT Nat) PathClass.plain (.arr 0)).1.read
          (newPath (⟨[[0]]⟩ : HeapT Nat) PathClass.plain (.arr 0)).2.ref := by
  decide

/-- Writing through the array allocated by an operation does not change any
pre-existing array. -/
theorem read_write_alloc {T : Type} (h : HeapT T) (res a : List T) (r : Nat)
    (hr : r < h.arrays.length) :
    (((h.alloc res).1).write (h.alloc res).2 a).read r = h.read r := by
  unfold HeapT.alloc HeapT.write HeapT.read
  simp only
  rw [List.getD_eq_getElem?_getD, List.getD_eq_getElem?_getD]
  rw [List.getElem?_set_ne (by omega)]
  rw [List.getElem?_append_left hr]

/-- Claim C9 (amended): construction from a non-array iterable (and from
`undefined`) copies into a freshly allocated array, so no later mutation of
any pre-existing array — in particular the caller's source — can change the
path's observable elements; and no accessor exposes a mutable view of the
internal storage: element accessors return values, and every operation that
hands out an array-backed object (the derivation operations) backs it with
a freshly allocated array distinct from the receiver's, so mutating through
the returned object leaves the receiver's observable elements unchanged.
Construction from an array, however, aliases the caller's array (the code's
`of`, `parse` and every derivation operation pass freshly created arrays,
so paths built through them enjoy the same isolation). -/
theorem c9_ownership :
    (∀ (T : Type) (h : HeapT T) (c : PathClass) (xs : List T),
        (newPath h c (.iter xs)).1.read (newPath h c (.iter xs)).2.ref = xs
          ∧ ∀ (r : Nat) (a : List T), r < h.arrays.length →
              ((newPath h c (.iter xs)).1.write r a).read
                  (newPath h c (.iter xs)).2.ref = xs)
      ∧ (∀ (T : Type) (h : HeapT T) (p : PathObj) (op : PathOp T),
          p.ref < h.arrays.length →
            (derive h p op).2.ref ≠ p.ref
              ∧ ∀ (a : List T),
                  ((derive h p op).1.write (derive h p op).2.ref a).read p.ref
                    = h.read p.ref) := by
  constructor
  · intro T h c xs
    constructor
    · show (h.alloc xs).1.read (h.alloc xs).2 = xs
      unfold HeapT.alloc HeapT.read
      simp
    · intro r a hr
      show ((h.alloc xs).1.write r a).read (h.alloc xs).2 = xs
      unfold HeapT.alloc HeapT.read HeapT.write
      simp only
      rw [List.getD_eq_getElem?_getD]
      rw [show (h.arrays ++ [xs]).set r a = h.arrays.set r a ++ [xs] from
        List.set_append_left _ _ hr]
      rw [List.getElem?_append_right (by simpa using Nat.le_refl _)]
      simp
  · intro T h p op hr
    have hfresh : (derive h p op).2.ref = h.arrays.length := rfl
    constructor
    · rw [hfresh]
      omega
    · intro a
      exact read_write_alloc h _ a p.ref hr

/-- Claim C9, witness: the amended isolation applied at concrete heaps —
mutating the pre-existing array does not change a path built from an
iterable copy, and mutating the array backing a derived path does not
change the receiver. -/
theorem c9_ownership_witness :
    ((newPath (⟨[[5]]⟩ : HeapT Nat) PathClass.plain (.iter [7])).1.write 0 [9]).read
        (newPath (⟨[[5]]⟩ : HeapT Nat) PathClass.plain (.iter [7])).2.ref = [7]
      ∧ ((derive (⟨[[1, 2]]⟩ : HeapT Nat) ⟨PathClass.plain, 0⟩ PathOp.tailOp).1.write
            (derive (⟨[[1, 2]]⟩ : HeapT Nat) ⟨PathClass.plain, 0⟩ PathOp.tailOp).2.ref
            [3]).read 0
          = HeapT.read (⟨[[1, 2]]⟩ : HeapT Nat) 0 :=
  ⟨(c9_ownership.1 Nat ⟨[[5]]⟩ PathClass.plain [7]).2 0 [9] (by decide),
    (c9_ownership.2 Nat ⟨[[1, 2]]⟩ ⟨PathClass.plain, 0⟩ PathOp.tailOp (by decide)).2 [3]⟩

/-- Embedding of JS array indexing `this.elements[i]` as used by
`Path.element` (path.ts lines 190-192): an integer index outside
`[0, length)` reads an absent property and yields `undefined` (`none`). -/
def jsIndex {T : Type} (l : List T) (i : Int) : Option T :=
  if h : 0 ≤ i ∧ i.toNat < l.length then some (l.get ⟨i.toNat, h.2⟩) else none

/-- Embedding of `Path.head` (path.ts lines 198-200): `this.elements[0]`. -/
def pathHead {T : Type} (l : List T) : Option T := jsIndex l 0

/-- Embedding of `Path.last` (path.ts lines 210-212):
`this.elements[this.elements.length - 1]`. -/
def pathLast {T : Type} (l : List T) : Option T := jsIndex l ((l.length : Int) - 1)

/-- Claim C10: on an empty path `head()` and `last()` return `undefined`
(and, being total functions of the embedding, cannot throw), and
`element(i)` is `undefined` for every index outside `[0, length)`. -/
theorem c10_out_of_range_undefined :
    (∀ (T : Type) (l : List T), l = [] → pathHead l = none ∧ pathLast l = none)
      ∧ (∀ (T : Type) (l : List T) (i : Int),
          i < 0 ∨ (l.length : Int) ≤ i → jsIndex l i = none) := by
  constructor
  · rintro T l rfl
    constructor <;> simp [pathHead, pathLast, jsIndex]
  · intro T l i h
    rw [jsIndex, dif_neg]
    rintro ⟨h1, h2⟩
    rcases h with h | h <;> omega

/-- Claim C10, witness: evaluated on the empty path and on out-of-range
indices of a concrete path. -/
theorem c10_out_of_range_witness :
    (pathHead ([] : List Nat) = none ∧ pathLast ([] : List Nat) = none)
      ∧ jsIndex [3, 4] (-1) = none :=
  ⟨c10_out_of_range_undefined.1 Nat [] rfl,
    c10_out_of_range_undefined.2 Nat [3, 4] (-1) (Or.inl (by decide))⟩
